import Mathlib

/-!
Verification of the session-pool / chunk-processing core of the
Talk-to-my-tabs browser extension.

The development shallowly embeds three source files:

* apps/extension/src/utils/contentExtractor.ts (the text-chunker part):
  splitIntoChunks, estimateTokens;
* the article simplification pipeline (simplifyArticle), which chunks
  oversized content, feeds the chunks sequentially to one pooled
  summarizer session and folds the partial results;
* apps/extension/src/utils/session-manager.ts (class AISessionManager):
  a pooled-session manager with idle sweep, LRU eviction, a minimum
  creation interval, and an (unused) creationQueue field.

JavaScript strings are embedded as List Char, machine numbers as Nat/Int,
the async/await control flow of the session manager as a small-step
state machine in which every timer or host-runtime await is an explicit
suspension point (microtask-only hops that contain no timer and no host
call are folded into the surrounding atomic step).
-/

namespace TalkToTabs

/-- JavaScript strings are modelled as lists of characters. -/
abbrev Text := List Char

/-! ## Text chunker (contentExtractor.ts, text-chunker)

Source:

  export const estimateTokens = (text: string): number => {
    return Math.ceil(text.length / 4)
  }
-/

/-- estimateTokens: Math.ceil(text.length / 4) on a natural number. -/
def estimateTokens (text : Text) : Nat := (text.length + 3) / 4

/-- JavaScript String.prototype.lastIndexOf for a single character:
the largest index at which the character occurs, or -1. -/
def lastIndexOf (c : Char) (l : Text) : Int :=
  match l.reverse.findIdx? (fun x => x = c) with
  | none => -1
  | some i => ((l.length - 1 - i : Nat) : Int)

/-- The whitespace characters removed by JavaScript String.prototype.trim
(space, tab, line feed, carriage return, vertical tab, form feed). -/
def isJsWhitespace (c : Char) : Bool :=
  c = ' ' || c = '\t' || c = '\n' || c = '\r' || c = '\x0b' || c = '\x0c'

/-- JavaScript String.prototype.trim: whitespace stripped from both ends. -/
def jsTrim (l : Text) : Text :=
  ((l.dropWhile isJsWhitespace).reverse.dropWhile isJsWhitespace).reverse

/-- JavaScript text.substring(s, e) for 0 ≤ s ≤ e (the only shape used by
splitIntoChunks): the slice from index s (inclusive) to e (exclusive),
clamped to the length of the string. -/
def substringJS (l : Text) (s e : Nat) : Text := (l.take e).drop s

/-- The while loop of splitIntoChunks (text-chunker lines 100-122),
with an explicit fuel so that the embedding is total; none is returned when
the fuel is exhausted, i.e. when the source loop has not terminated within
fuel iterations.  Source of one iteration:

    const endIndex = Math.min(startIndex + maxSize, text.length)
    let chunk = text.substring(startIndex, endIndex)
    if (endIndex < text.length) {
      const lastPeriod = chunk.lastIndexOf('.')
      const lastNewline = chunk.lastIndexOf('\n')
      const lastSpace = chunk.lastIndexOf(' ')
      const breakPoint = Math.max(lastPeriod, lastNewline, lastSpace)
      if (breakPoint > maxSize * 0.5) {
        chunk = text.substring(startIndex, startIndex + breakPoint + 1)
        startIndex = startIndex + breakPoint + 1 - overlap
      } else {
        startIndex = endIndex - overlap
      }
    } else {
      startIndex = endIndex
    }
    chunks.push(chunk.trim())

breakPoint > maxSize * 0.5 is rendered as 2 * breakPoint > maxSize (both
sides integers, so the two comparisons agree).  The loop locals endIndex,
chunk and breakPoint are named windowEnd, windowChunk and windowBreak.
The two subtractions that produce the next start index are natural-number
subtractions; they agree with the JavaScript values whenever the overlap
does not exceed the cut position, which holds under the preconditions of
every theorem below (a negative JavaScript start index is clamped to 0 by
substring anyway). -/
def windowEnd (text : Text) (maxSize startIndex : Nat) : Nat :=
  min (startIndex + maxSize) text.length

/-- The loop local chunk before any break-point cut:
text.substring(startIndex, endIndex). -/
def windowChunk (text : Text) (maxSize startIndex : Nat) : Text :=
  substringJS text startIndex (windowEnd text maxSize startIndex)

/-- The loop local breakPoint: Math.max of the last occurrences of a
period, a line break and a space in the window. -/
def windowBreak (text : Text) (maxSize startIndex : Nat) : Int :=
  max (lastIndexOf '.' (windowChunk text maxSize startIndex))
    (max (lastIndexOf '\n' (windowChunk text maxSize startIndex))
      (lastIndexOf ' ' (windowChunk text maxSize startIndex)))

def splitGo (text : Text) (maxSize overlap : Nat) : Nat → Nat → Option (List Text)
  | 0, _ => none
  | fuel + 1, startIndex =>
    if startIndex < text.length then
      if windowEnd text maxSize startIndex < text.length then
        if 2 * windowBreak text maxSize startIndex > (maxSize : Int) then
          (splitGo text maxSize overlap fuel
            (startIndex + (windowBreak text maxSize startIndex).toNat + 1 - overlap)).map
            (jsTrim (substringJS text startIndex
              (startIndex + (windowBreak text maxSize startIndex).toNat + 1)) :: ·)
        else
          (splitGo text maxSize overlap fuel
            (windowEnd text maxSize startIndex - overlap)).map
            (jsTrim (windowChunk text maxSize startIndex) :: ·)
      else
        (splitGo text maxSize overlap fuel (windowEnd text maxSize startIndex)).map
          (jsTrim (windowChunk text maxSize startIndex) :: ·)
    else some []

/-- splitIntoChunks (text-chunker lines 86-125).  The fuel text.length + 1
is enough for any execution in which the loop advances by at least one
character per iteration; an execution that needs more fuel than that has
revisited a start index and therefore diverges in the source. -/
def splitIntoChunks (text : Text) (maxSize overlap : Nat) : Option (List Text) :=
  if text.length ≤ maxSize then some [text]
  else splitGo text maxSize overlap (text.length + 1) 0

/-- DEFAULT_CHUNK_SIZE (text-chunker line 83). -/
def DEFAULT_CHUNK_SIZE : Nat := 4000

/-- DEFAULT_OVERLAP (text-chunker line 84). -/
def DEFAULT_OVERLAP : Nat := 200

/-! ## simplifyArticle (the chunk processor)

Source: the simplifyArticle function of the simplification pipeline.
The host summarizer session is abstracted as a pure oracle
(a function from input text to summary text); the AbortSignal is
abstracted as the sequence of values read from signal.aborted, indexed
by the order in which the source reads that flag (read 0 is the check on
function entry, read 1 the check after session acquisition, read 2 + i
the check before chunk i, and read 2 + number-of-chunks the check before
the final fold pass).  Each host interaction is logged as an event. -/

/-- MAX_INPUT_TOKENS (simplifyArticle module, line 7). -/
def MAX_INPUT_TOKENS : Nat := 4000

/-- CHARS_PER_TOKEN (simplifyArticle module, line 8). -/
def CHARS_PER_TOKEN : Nat := 4

/-- The observable host interactions of one simplifyArticle call:
the single sessionManager.getSession acquisition and each
summarize(summarizer, input) call with the input it was given. -/
inductive SimEvent where
  | acquire
  | process (input : Text)
deriving DecidableEq, Repr

/-- The chunk loop of simplifyArticle (lines 73-87): process the chunks in
order, checking signal.aborted before each chunk; on abort, throw
'Operation cancelled' (line 76) and schedule no further chunks.  The
summaries are accumulated in order; the 500 ms pause between chunks has no
observable effect in this sequential embedding.  The Nat argument is the
index of the next abort-signal read. -/
def chunkLoop (oracle : Text → Text) (signal : Nat → Bool) :
    List Text → Nat → Except String (List Text) × List SimEvent
  | [], _ => (.ok [], [])
  | c :: rest, i =>
    if signal (2 + i) then (.error "Operation cancelled", [])
    else
      match chunkLoop oracle signal rest (i + 1) with
      | (r, evs) => ((r.map (oracle c :: ·)), SimEvent.process c :: evs)

/-- The try block of simplifyArticle (lines 42-108), before the catch
clause maps error messages.  The abort check on function entry
(lines 38-40, signal read 0) sits before this try block and is modelled
in simplifyArticle itself.  Mirrors the source control flow:

* line 54: acquire one pooled session;
* line 60: abort check after acquisition (signal read 1);
* line 65: if estimateTokens(content) > MAX_INPUT_TOKENS, split into
  chunks of maxChunkSize = MAX_INPUT_TOKENS * CHARS_PER_TOKEN with
  overlap 200 and run the chunk loop;
* line 89: join the summaries with a blank line;
* lines 92-101: if the joined summary is still oversized, one further
  abort check and then exactly one more summarize call on the joined text;
* line 107: otherwise a single summarize call on the whole content. -/
def simplifyTry (content : Text) (signal : Nat → Bool) (oracle : Text → Text) :
    Except String Text × List SimEvent :=
  if signal 1 then (.error "Operation cancelled", [SimEvent.acquire])
  else
    if MAX_INPUT_TOKENS < estimateTokens content then
      match splitIntoChunks content (MAX_INPUT_TOKENS * CHARS_PER_TOKEN) 200 with
      | none => (.error "chunk loop exhausted its fuel", [SimEvent.acquire])
      | some chunks =>
        match chunkLoop oracle signal chunks 0 with
        | (.error e, evs) => (.error e, SimEvent.acquire :: evs)
        | (.ok summaries, evs) =>
          let combined := List.intercalate ['\n', '\n'] summaries
          if MAX_INPUT_TOKENS < estimateTokens combined then
            if signal (2 + chunks.length) then
              (.error "Operation cancelled", SimEvent.acquire :: evs)
            else
              (.ok (oracle combined),
               SimEvent.acquire :: evs ++ [SimEvent.process combined])
          else (.ok combined, SimEvent.acquire :: evs)
    else (.ok (oracle content), [SimEvent.acquire, SimEvent.process content])

/-- Containment of one character list in another, as a boolean. -/
def textContains (hay needle : Text) : Bool := decide (needle <:+: hay)

/-- The message test error.message.includes(s) of the catch clause. -/
def includesJS (msg : String) (s : String) : Bool := textContains msg.toList s.toList

/-- The catch clause of simplifyArticle (lines 110-127): a thrown message
containing 'cancelled' is rethrown as 'Simplification was cancelled',
one containing 'timeout' as a shorter-article hint, one containing
'not available' as a setup hint; anything else is rethrown unchanged. -/
def mapSimplifyError (e : String) : String :=
  if includesJS e "cancelled" then "Simplification was cancelled"
  else if includesJS e "timeout" then
    "Simplification timed out. Please try with a shorter article."
  else if includesJS e "not available" then
    "Chrome AI is not available. Please check your setup."
  else e

/-- simplifyArticle: the abort check on function entry (lines 38-40,
signal read 0) throws before the try block, so its 'Operation cancelled'
escapes without passing through the catch clause's message mapping; the
try block itself is wrapped in the catch clause. -/
def simplifyArticle (content : Text) (signal : Nat → Bool) (oracle : Text → Text) :
    Except String Text × List SimEvent :=
  if signal 0 then (.error "Operation cancelled", [])
  else
    match simplifyTry content signal oracle with
    | (.ok r, evs) => (.ok r, evs)
    | (.error e, evs) => (.error (mapSimplifyError e), evs)

/-! ## AISessionManager (session-manager.ts)

The class is embedded as a small-step state machine.  Each atomic step
corresponds to one synchronous segment of the source between suspension
points; the suspension points are exactly the timer waits
(the 200 ms pre-destroy delay, the rate-limit wait, the 500 ms
inter-chunk delay) and the host-runtime calls (availability, create,
process).  Microtask-only hops that contain neither a timer nor a host
call (for example resuming from an await of a cleanup() call whose
toDestroy list is empty) are folded into the surrounding atomic step;
every execution of this machine is an execution of the source event loop.
The host runtime is assumed available and successful (the retry loop of
createSummarizerWithRetry never fires), which is the happy path all the
claims below quantify over; host-call latencies are environment
parameters. -/

/-- MIN_CREATION_INTERVAL (session-manager.ts line 31). -/
def MIN_CREATION_INTERVAL : Nat := 1000

/-- MAX_SESSIONS (session-manager.ts line 32). -/
def MAX_SESSIONS : Nat := 3

/-- SESSION_TIMEOUT (session-manager.ts line 33). -/
def SESSION_TIMEOUT : Nat := 5 * 60 * 1000

/-- The 200 ms delay inserted before every session.destroy() call. -/
def DESTROY_DELAY : Nat := 200

/-- The 500 ms delay between chunks in the simplifyArticle loop. -/
def CHUNK_DELAY : Nat := 500

/-- The argument of getSession (session-manager.ts lines 14-17): a
capability kind plus the canonical serialization of its options.  Two
configs are equal iff kind and serialized options agree. -/
structure SessionConfig where
  type : String
  optionsJson : String
deriving DecidableEq, Repr

/-- The map key (line 39): sessionKey = type + "-" + JSON.stringify(options). -/
def sessionKey (cfg : SessionConfig) : String := cfg.type ++ "-" ++ cfg.optionsJson

/-- One entry of the sessions map (ManagedSession, lines 19-25); the opaque
host session object is identified by the Nat handle. -/
structure ManagedSession where
  handle : Nat
  type : String
  createdAt : Nat
  lastUsedAt : Nat
  useCount : Nat
deriving DecidableEq, Repr

/-- The observable host interactions and bookkeeping events of the pool. -/
inductive PoolEvent where
  | reuse (key : String) (t : Nat)
  | createCall (key : String) (t : Nat)
  | created (key : String) (handle : Nat) (t : Nat)
  | destroyCall (handle : Nat) (key : String) (t : Nat)
  | processCall (key : String) (chunkIndex : Nat) (t : Nat)
deriving DecidableEq, Repr

/-- The manager state: the sessions map (a JavaScript Map is an
insertion-ordered association list with unique keys), lastCreationTime
(line 30), a counter generating fresh handles, the current clock value in
milliseconds, and the chronological event log. -/
structure PoolState where
  sessions : List (String × ManagedSession)
  lastCreationTime : Nat
  nextHandle : Nat
  now : Nat
  events : List PoolEvent
deriving DecidableEq, Repr

/-- Map.get: the entry for a key, if present. -/
def mapGet (m : List (String × ManagedSession)) (k : String) : Option ManagedSession :=
  (m.find? (fun p => p.1 = k)).map (fun p => p.2)

/-- Map.set: replace the entry in place if the key is present, else append. -/
def mapSet (m : List (String × ManagedSession)) (k : String) (v : ManagedSession) :
    List (String × ManagedSession) :=
  if (m.find? (fun p => p.1 = k)).isSome then
    m.map (fun p => if p.1 = k then (k, v) else p)
  else m ++ [(k, v)]

/-- Map.delete: remove the entry for a key (a no-op if absent). -/
def mapDelete (m : List (String × ManagedSession)) (k : String) :
    List (String × ManagedSession) :=
  m.filter (fun p => !(p.1 == k))

/-- Host-runtime latencies for one run: how long the availability probe,
the create call and one process (summarize) call take. -/
structure HostEnv where
  availLatency : Nat
  createLatency : Nat
  processLatency : Nat
deriving DecidableEq, Repr

/-- The suspension points of one getSession call (lines 38-88).  Every
constructor carries the absolute time at which the timer or host call it
is waiting on resolves.

* gstart: the call has been issued and will run its first synchronous
  segment (key computation, map lookup, and on a miss the computation of
  cleanup's toDestroy list) when scheduled;
* cleanupWait: inside cleanup (lines 242-264), sleeping the 200 ms
  pre-destroy delay for victim, whose ManagedSession object was captured
  before the sleep (line 253); rest are the remaining expired keys;
* evictWait: inside destroyOldestSession (lines 214-237), sleeping the
  200 ms delay before destroying the captured least-recently-used entry;
* rateWait: sleeping out the remainder of MIN_CREATION_INTERVAL
  (lines 60-65);
* availWait: awaiting the availability() probe inside
  createSummarizerWithRetry / createLanguageModelWithRetry;
* createWait: awaiting the host create call. -/
inductive GetPhase where
  | gstart (wakeAt : Nat)
  | cleanupWait (victim : String) (victimHandle : Option Nat) (rest : List String)
      (wakeAt : Nat)
  | evictWait (victim : String) (victimHandle : Nat) (wakeAt : Nat)
  | rateWait (wakeAt : Nat)
  | availWait (wakeAt : Nat)
  | createWait (wakeAt : Nat)
deriving DecidableEq, Repr

/-- The keys swept by cleanup (lines 246-250): every entry idle longer
than SESSION_TIMEOUT, in map iteration order. -/
def expiredKeys (st : PoolState) : List String :=
  (st.sessions.filter (fun p => decide (SESSION_TIMEOUT < st.now - p.2.lastUsedAt))).map
    (fun p => p.1)

/-- The victim chosen by destroyOldestSession (lines 215-223): the first
entry with the strictly smallest lastUsedAt, if the map is nonempty. -/
def oldestSession (m : List (String × ManagedSession)) : Option (String × ManagedSession) :=
  m.foldl (fun acc p =>
    match acc with
    | none => some p
    | some q => if p.2.lastUsedAt < q.2.lastUsedAt then some p else acc) none

/-- The rate-limit check and entry into session creation (lines 59-65 and
the start of createSessionInternal): if less than MIN_CREATION_INTERVAL
has elapsed since lastCreationTime, sleep the remainder; otherwise invoke
the availability probe at once. -/
def rateOrCreate (env : HostEnv) (st : PoolState) : GetPhase :=
  let elapsed := st.now - st.lastCreationTime
  if elapsed < MIN_CREATION_INTERVAL then
    .rateWait (st.now + (MIN_CREATION_INTERVAL - elapsed))
  else .availWait (st.now + env.availLatency)

/-- Resumption after cleanup has finished (lines 53-65): if the map is at
capacity, enter destroyOldestSession (capture the LRU entry, then sleep
the 200 ms delay); otherwise run the rate-limit check. -/
def afterCleanup (env : HostEnv) (st : PoolState) : PoolState × (GetPhase ⊕ Nat) :=
  if MAX_SESSIONS ≤ st.sessions.length then
    match oldestSession st.sessions with
    | some p => (st, .inl (.evictWait p.1 p.2.handle (st.now + DESTROY_DELAY)))
    | none => (st, .inl (rateOrCreate env st))
  else (st, .inl (rateOrCreate env st))

/-- One atomic step of a getSession call.  The result is either the next
suspended phase or (inr) the handle getSession resolves with. -/
def stepG (env : HostEnv) (cfg : SessionConfig) (st : PoolState) :
    GetPhase → PoolState × (GetPhase ⊕ Nat)
  | .gstart w =>
    let st := { st with now := max st.now w }
    let key := sessionKey cfg
    match mapGet st.sessions key with
    | some m =>
      -- fast path (lines 42-48): update lastUsedAt / useCount, return the handle
      let m' := { m with lastUsedAt := st.now, useCount := m.useCount + 1 }
      ({ st with sessions := mapSet st.sessions key m',
                 events := st.events ++ [.reuse key st.now] }, .inr m.handle)
    | none =>
      -- miss: await cleanup() (line 51)
      match expiredKeys st with
      | [] => afterCleanup env st
      | k :: ks =>
        (st, .inl (.cleanupWait k ((mapGet st.sessions k).map (fun m => m.handle)) ks
          (st.now + DESTROY_DELAY)))
  | .cleanupWait k h rest w =>
    let st := { st with now := max st.now w }
    -- destroy the captured session and delete its key (lines 256-262);
    -- if the entry vanished meanwhile, the thrown TypeError is caught and
    -- the delete still runs
    let st := { st with
      sessions := mapDelete st.sessions k,
      events := st.events ++ (match h with
        | some hh => [PoolEvent.destroyCall hh k st.now]
        | none => []) }
    match rest with
    | [] => afterCleanup env st
    | k' :: ks =>
      (st, .inl (.cleanupWait k' ((mapGet st.sessions k').map (fun m => m.handle)) ks
        (st.now + DESTROY_DELAY)))
  | .evictWait k h w =>
    let st := { st with now := max st.now w }
    let st := { st with
      sessions := mapDelete st.sessions k,
      events := st.events ++ [.destroyCall h k st.now] }
    (st, .inl (rateOrCreate env st))
  | .rateWait w =>
    let st := { st with now := max st.now w }
    (st, .inl (.availWait (st.now + env.availLatency)))
  | .availWait w =>
    let st := { st with now := max st.now w }
    -- the probe resolved 'available'; invoke the host create call
    ({ st with events := st.events ++ [.createCall (sessionKey cfg) st.now] },
     .inl (.createWait (st.now + env.createLatency)))
  | .createWait w =>
    let st := { st with now := max st.now w }
    -- creation bookkeeping (lines 71-80)
    let h := st.nextHandle
    let m : ManagedSession :=
      { handle := h, type := cfg.type, createdAt := st.now, lastUsedAt := st.now,
        useCount := 1 }
    ({ st with lastCreationTime := st.now,
               sessions := mapSet st.sessions (sessionKey cfg) m,
               nextHandle := h + 1,
               events := st.events ++ [.created (sessionKey cfg) h st.now] }, .inr h)

/-- The suspension points of the chunk loop of simplifyArticle when it
runs against the live pool:
* acquiring: inside the getSession call;
* chunkCall: the next synchronous segment issues the summarize call for
  chunk i (or leaves the loop when all numChunks chunks are done);
* chunkWait: the summarize call for chunk i is in flight;
* finished: all chunks processed. -/
inductive ProcPhase where
  | acquiring (g : GetPhase)
  | chunkCall (handle : Nat) (i : Nat) (wakeAt : Nat)
  | chunkWait (handle : Nat) (i : Nat) (wakeAt : Nat)
  | finished (handle : Nat)
deriving DecidableEq, Repr

/-- A logical task in the event loop: a bare getSession call (acq,
completing to acqDone), or a simplifyArticle chunk loop over numChunks
chunks on one acquired session (prc). -/
inductive Thread where
  | acq (cfg : SessionConfig) (ph : GetPhase)
  | acqDone (cfg : SessionConfig) (handle : Nat)
  | prc (cfg : SessionConfig) (numChunks : Nat) (ph : ProcPhase)
deriving DecidableEq, Repr

/-- One atomic step of a thread (a step of a completed thread is a no-op). -/
def stepTh (env : HostEnv) (st : PoolState) : Thread → PoolState × Thread
  | .acq cfg ph =>
    match stepG env cfg st ph with
    | (st', .inl ph') => (st', .acq cfg ph')
    | (st', .inr h) => (st', .acqDone cfg h)
  | .acqDone cfg h => (st, .acqDone cfg h)
  | .prc cfg n ph =>
    match ph with
    | .acquiring g =>
      match stepG env cfg st g with
      | (st', .inl g') => (st', .prc cfg n (.acquiring g'))
      | (st', .inr h) => (st', .prc cfg n (.chunkCall h 0 st'.now))
    | .chunkCall h i w =>
      let st := { st with now := max st.now w }
      if i < n then
        ({ st with events := st.events ++ [.processCall (sessionKey cfg) i st.now] },
         .prc cfg n (.chunkWait h i (st.now + env.processLatency)))
      else (st, .prc cfg n (.finished h))
    | .chunkWait h i w =>
      let st := { st with now := max st.now w }
      if i + 1 < n then
        -- 500 ms pause before the next chunk (simplifyArticle lines 84-86)
        (st, .prc cfg n (.chunkCall h (i + 1) (st.now + CHUNK_DELAY)))
      else (st, .prc cfg n (.finished h))
    | .finished h => (st, .prc cfg n (.finished h))

/-- A schedule item: step thread tid once, or let d milliseconds of idle
time pass. -/
inductive SchedItem where
  | runT (tid : Nat)
  | tick (d : Nat)
deriving DecidableEq, Repr

/-- Run a schedule over a thread list.  Stepping a thread index that does
not exist is a no-op. -/
def runSched (env : HostEnv) : PoolState → List Thread → List SchedItem →
    PoolState × List Thread
  | st, ths, [] => (st, ths)
  | st, ths, .tick d :: rest => runSched env { st with now := st.now + d } ths rest
  | st, ths, .runT i :: rest =>
    match ths[i]? with
    | none => runSched env st ths rest
    | some th =>
      match stepTh env st th with
      | (st', th') => runSched env st' (ths.set i th') rest

/-- The pool state at extension start: empty map, lastCreationTime = 0
(line 30), clock at n0 milliseconds. -/
def poolStart (n0 : Nat) : PoolState :=
  { sessions := [], lastCreationTime := 0, nextHandle := 0, now := n0, events := [] }

/-- Drive a single getSession call to completion with the given fuel,
with no interleaving from other tasks: the semantics of a getSession call
that runs alone. -/
def driveGet (env : HostEnv) (cfg : SessionConfig) :
    Nat → PoolState → GetPhase → PoolState × Option Nat
  | 0, st, _ => (st, none)
  | fuel + 1, st, ph =>
    match stepG env cfg st ph with
    | (st', .inl ph') => driveGet env cfg fuel st' ph'
    | (st', .inr h) => (st', some h)

/-- One un-interleaved getSession call issued at the state's current
time.  The fuel sessions.length + 8 covers the longest possible phase
sequence (one cleanup step per map entry plus the eviction, rate,
availability and creation steps). -/
def acquireOnce (env : HostEnv) (cfg : SessionConfig) (st : PoolState) :
    PoolState × Option Nat :=
  driveGet env cfg (st.sessions.length + 8) st (.gstart st.now)

/-- Back-to-back un-interleaved getSession calls for one config: each list
entry is the idle gap in milliseconds before the next call. -/
def acquireSeq (env : HostEnv) (cfg : SessionConfig) :
    PoolState → List Nat → PoolState
  | st, [] => st
  | st, g :: gs =>
    acquireSeq env cfg (acquireOnce env cfg { st with now := st.now + g }).1 gs

/-- The host create calls recorded in an event log. -/
def createCalls (evs : List PoolEvent) : List PoolEvent :=
  evs.filter (fun e => match e with | .createCall _ _ => true | _ => false)

/-- The times of the host create calls in an event log. -/
def createTimes (evs : List PoolEvent) : List Nat :=
  evs.filterMap (fun e => match e with | .createCall _ t => some t | _ => none)

/-- The session.destroy() calls recorded in an event log. -/
def destroyCalls (evs : List PoolEvent) : List PoolEvent :=
  evs.filter (fun e => match e with | .destroyCall _ _ _ => true | _ => false)

/-- The reuse (fast-path) events recorded in an event log. -/
def reuseEvents (evs : List PoolEvent) : List PoolEvent :=
  evs.filter (fun e => match e with | .reuse _ _ => true | _ => false)

/-! ## Concrete executions used as counterexamples

All of them are realistic event-loop interleavings: whenever two tasks
are runnable, the one whose wake-up time is not later is stepped first,
and the clock never runs backwards. -/

/-- A host runtime whose probe, create and process calls resolve
immediately: the fastest (and most favourable) host behaviour. -/
def envZero : HostEnv := ⟨0, 0, 0⟩

/-- A summarizer config with the given serialized options. -/
def cfgOf (s : String) : SessionConfig := ⟨"summarizer", s⟩

/-- Two concurrent getSession calls for distinct configs, both issued at
t = 2000 ms against a fresh pool. -/
def racingThreads : List Thread :=
  [.acq (cfgOf "A") (.gstart 2000), .acq (cfgOf "B") (.gstart 2000)]

/-- Interleaving for the race: both calls miss and pass the rate-limit
check before either host create call has returned; the second create is
issued 1 ms after the first. -/
def raceSchedC1 : List SchedItem :=
  [.runT 0, .runT 1, .runT 0, .tick 1, .runT 1, .runT 0, .runT 1]

/-- The same race stopped at the point where both host create calls are
simultaneously in flight. -/
def raceSchedC4 : List SchedItem :=
  [.runT 0, .runT 1, .runT 0, .runT 1]

/-- Five getSession calls: three sequential ones fill the pool to
MAX_SESSIONS, then two concurrent calls for two further configs arrive
together. -/
def fillThreads : List Thread :=
  [.acq (cfgOf "k1") (.gstart 0), .acq (cfgOf "k2") (.gstart 0),
   .acq (cfgOf "k3") (.gstart 0), .acq (cfgOf "k4") (.gstart 0),
   .acq (cfgOf "k5") (.gstart 0)]

/-- Interleaving for the capacity race: the two late calls both observe a
full pool, both pick the same least-recently-used victim, both destroy it,
and both insert a new session. -/
def fillSched : List SchedItem :=
  [.runT 0, .runT 0, .runT 0, .tick 1100,
   .runT 1, .runT 1, .runT 1, .tick 1100,
   .runT 2, .runT 2, .runT 2, .tick 50,
   .runT 3, .runT 4, .runT 3, .runT 4, .runT 3, .runT 4,
   .runT 3, .runT 4, .runT 3, .runT 4, .runT 3, .runT 4]

/-- A host runtime whose summarize calls take 5 s. -/
def envProc : HostEnv := ⟨0, 0, 5000⟩

/-- A simplifyArticle chunk loop over two chunks on config p, racing three
later getSession calls for other configs. -/
def procThreads : List Thread :=
  [.prc (cfgOf "p") 2 (.acquiring (.gstart 0)),
   .acq (cfgOf "q2") (.gstart 0), .acq (cfgOf "q3") (.gstart 0),
   .acq (cfgOf "q4") (.gstart 0)]

/-- Interleaving in which the third later call finds the pool full while
the chunk loop still has its second chunk pending, and evicts the chunk
loop's session (the least recently used one, since getSession was called
once, at acquisition time). -/
def procSched : List SchedItem :=
  [.runT 0, .runT 0, .runT 0, .runT 0, .tick 1100,
   .runT 1, .runT 1, .runT 1, .tick 1100,
   .runT 2, .runT 2, .runT 2, .tick 50,
   .runT 3, .runT 3, .runT 3, .runT 3, .runT 3,
   .runT 0, .runT 0, .runT 0]

/-- A pool that is not fresh: it already holds one stale session
(handle 5, idle since t = 0, so older than SESSION_TIMEOUT at
t = 400000) when a solo chunk-processor call arrives. -/
def dirtyPool : PoolState :=
  { sessions := [("summarizer-old",
      { handle := 5, type := "summarizer", createdAt := 0, lastUsedAt := 0,
        useCount := 3 })],
    lastCreationTime := 0, nextHandle := 6, now := 400000, events := [] }

/-- A schedule driving the solo chunk-processor call over dirtyPool to
completion: its own idle sweep destroys the stale session during
acquisition, then two chunks are processed. -/
def dirtySched : List SchedItem :=
  [.runT 0, .runT 0, .runT 0, .runT 0, .runT 0, .runT 0, .runT 0, .runT 0]

/-- The destroy calls in an event log that target one particular session
handle. -/
def destroyCallsOf (h : Nat) (evs : List PoolEvent) : List PoolEvent :=
  evs.filter (fun e => match e with | .destroyCall h2 _ _ => h2 == h | _ => false)

/-- The handle a chunk-processor thread holds once its acquisition has
completed. -/
def procHandle : Thread → Option Nat
  | .prc _ _ (.chunkCall h _ _) => some h
  | .prc _ _ (.chunkWait h _ _) => some h
  | .prc _ _ (.finished h) => some h
  | _ => none

/-- Handle hygiene of a pool state: every handle stored in the sessions
map, and every handle already destroyed, is below the fresh-handle
counter. -/
def handlesBounded (st : PoolState) : Prop :=
  (∀ p ∈ st.sessions, p.2.handle < st.nextHandle) ∧
  (∀ h k t, PoolEvent.destroyCall h k t ∈ st.events → h < st.nextHandle)

/-- The phase side of the solo-run invariant during acquisition: at the
start the run's log is still empty, and every victim handle captured by
the sweep or the eviction was taken from the sessions map, hence is below
the fresh-handle counter. -/
def gPhaseOK (st : PoolState) : GetPhase → Prop
  | .gstart _ => st.events = []
  | .cleanupWait _ hh _ _ => ∀ h, hh = some h → h < st.nextHandle
  | .evictWait _ hh _ => hh < st.nextHandle
  | .rateWait _ => True
  | .availWait _ => True
  | .createWait _ => True

/-- The thread side of the solo-run invariant: while acquiring, the phase
condition holds; once past acquisition, no destroy call in the log
targets the acquired handle (and none will be added, since the chunk loop
only issues process calls). -/
def thPhaseOK (st : PoolState) : Thread → Prop
  | .prc _ _ (.acquiring g) => gPhaseOK st g
  | .prc _ _ (.chunkCall h _ _) => destroyCallsOf h st.events = []
  | .prc _ _ (.chunkWait h _ _) => destroyCallsOf h st.events = []
  | .prc _ _ (.finished h) => destroyCallsOf h st.events = []
  | _ => False

/-- The full solo-run invariant. -/
def soloOK (st : PoolState) (th : Thread) : Prop :=
  handlesBounded st ∧ thPhaseOK st th

/-! ## Theorems -/

/-- C1: the claim that two host create calls are always separated by at
least MIN_CREATION_INTERVAL fails on the code.  getSession reads
lastCreationTime before awaiting the host, and the creationQueue field
that was meant to serialize creations is never used, so two concurrent
getSession calls for distinct configs both observe the stale timestamp
and issue host create calls 1 ms apart.  This execution is the standard
event-loop interleaving of two simultaneous getSession("A") /
getSession("B") calls against a fresh manager. -/
theorem c1_creation_interval_violated :
    createTimes (runSched envZero (poolStart 2000) racingThreads raceSchedC1).1.events
        = [2000, 2001] ∧
      2001 - 2000 < MIN_CREATION_INTERVAL := by decide

/-- C4: the claim that all pool mutations are serialized through a single
logical queue, so that a later acquire observes the earlier acquire's
creation bookkeeping before beginning its own accounting, fails on the
code: the creationQueue field (session-manager.ts line 29) is declared but
never chained on.  In the racing execution both getSession calls are
simultaneously suspended on their own host create calls, and the second
call has already performed its rate-limit accounting while
lastCreationTime still holds its initial value 0. -/
theorem c4_pool_mutations_not_serialized :
    (runSched envZero (poolStart 2000) racingThreads raceSchedC4).2
        = [.acq (cfgOf "A") (.createWait 2000), .acq (cfgOf "B") (.createWait 2000)] ∧
      (runSched envZero (poolStart 2000) racingThreads raceSchedC4).1.lastCreationTime
        = 0 ∧
      createTimes (runSched envZero (poolStart 2000) racingThreads raceSchedC4).1.events
        = [2000, 2000] := by decide

/-- C2: the claim that at most MAX_SESSIONS pooled sessions ever exist
fails on the code.  With the pool at capacity (k1, k2, k3), two concurrent
getSession calls for new configs both pass the capacity check, both pick
k1 as the least-recently-used victim (destroying its host session twice),
and both insert their new session: the pool ends with 4 live sessions. -/
theorem c2_capacity_exceeded :
    (runSched envZero (poolStart 2000) fillThreads fillSched).1.sessions.length = 4 ∧
      MAX_SESSIONS <
        (runSched envZero (poolStart 2000) fillThreads fillSched).1.sessions.length ∧
      destroyCalls (runSched envZero (poolStart 2000) fillThreads fillSched).1.events
        = [.destroyCall 0 "summarizer-k1" 4450, .destroyCall 0 "summarizer-k1" 4450] := by
  decide

/-- C3 counterexample: a pooled session can be destroyed while the chunk
processor call that acquired it still has chunks pending.  The chunk loop
acquires the session for config p at t = 2000 and issues chunk 0
(in flight for 5 s); while it is pending, three later getSession calls
fill the pool, and the third one evicts p as the least-recently-used
session at t = 4450 — the loop then issues chunk 1 against the destroyed
handle at t = 7500.  The full event log of that execution is listed. -/
theorem c3_destroyed_while_in_flight :
    (runSched envProc (poolStart 2000) procThreads procSched).1.events =
      [.createCall "summarizer-p" 2000, .created "summarizer-p" 0 2000,
       .processCall "summarizer-p" 0 2000,
       .createCall "summarizer-q2" 3100, .created "summarizer-q2" 1 3100,
       .createCall "summarizer-q3" 4200, .created "summarizer-q3" 2 4200,
       .destroyCall 0 "summarizer-p" 4450,
       .createCall "summarizer-q4" 5200, .created "summarizer-q4" 3 5200,
       .processCall "summarizer-p" 1 7500] := by decide

/-- C8 counterexample: the claim asserts that when no break point is found
past 50% of a non-final window, the produced chunk ends overlapCharCount
characters before the window edge.  In the code the produced chunk is the
full window (it ends at the window edge); only the next start index backs
up by the overlap.  On fifteen letters with maxChunkSize 10 and overlap 2
the first window finds no break point, and the first produced chunk has
length 10, not 10 - 2 = 8. -/
theorem c8_claim_counterexample :
    splitIntoChunks (List.replicate 15 'a') 10 2 =
        some [List.replicate 10 'a', List.replicate 7 'a'] ∧
      ¬ (List.replicate 10 'a').length = 10 - 2 := by decide

/-- C8 (amended): in a non-final window whose last sentence-boundary,
line-break or word-boundary character is not past 50% of the window, the
produced chunk is the full window — it ends exactly at the window edge —
and the next window starts at the window edge minus the overlap. -/
theorem c8_no_breakpoint_cut (text : Text) (maxSize overlap startIndex fuel : Nat)
    (hwin : startIndex + maxSize < text.length)
    (hbp : 2 * windowBreak text maxSize startIndex ≤ (maxSize : Int)) :
    splitGo text maxSize overlap (fuel + 1) startIndex =
      (splitGo text maxSize overlap fuel (startIndex + maxSize - overlap)).map
        (jsTrim (windowChunk text maxSize startIndex) :: ·) := by
  have hs : startIndex < text.length := by omega
  have hend : windowEnd text maxSize startIndex = startIndex + maxSize := by
    unfold windowEnd; omega
  rw [splitGo, if_pos hs, hend, if_pos hwin, if_neg (by omega)]

/-- Witness for c8_no_breakpoint_cut at the concrete counterexample
window. -/
theorem c8_no_breakpoint_cut_witness :
    splitGo (List.replicate 15 'a') 10 2 (4 + 1) 0 =
      (splitGo (List.replicate 15 'a') 10 2 4 (0 + 10 - 2)).map
        (jsTrim (windowChunk (List.replicate 15 'a') 10 0) :: ·) :=
  c8_no_breakpoint_cut (List.replicate 15 'a') 10 2 0 4 (by decide) (by decide)

/-- Termination of the splitIntoChunks loop: under maxSize ≥ 1 and
overlap ≤ maxSize / 2 the start index strictly increases on every
iteration, so fuel exceeding the number of remaining characters
suffices. -/
theorem splitGo_total (text : Text) (maxSize overlap : Nat)
    (hM : 1 ≤ maxSize) (ho : overlap ≤ maxSize / 2) :
    ∀ fuel startIndex, text.length - startIndex < fuel →
      ∃ l, splitGo text maxSize overlap fuel startIndex = some l := by
  intro fuel
  induction fuel with
  | zero => intro s h; omega
  | succ f ih =>
    intro s h
    by_cases hs : s < text.length
    · rw [splitGo, if_pos hs]
      have hwe : windowEnd text maxSize s = min (s + maxSize) text.length := rfl
      by_cases hfin : windowEnd text maxSize s < text.length
      · rw [if_pos hfin]
        by_cases hbp : 2 * windowBreak text maxSize s > ((maxSize : Nat) : Int)
        · rw [if_pos hbp]
          obtain ⟨l, hl⟩ :=
            ih (s + (windowBreak text maxSize s).toNat + 1 - overlap) (by omega)
          rw [hl]
          exact ⟨_, rfl⟩
        · rw [if_neg hbp]
          obtain ⟨l, hl⟩ := ih (windowEnd text maxSize s - overlap) (by omega)
          rw [hl]
          exact ⟨_, rfl⟩
      · rw [if_neg hfin]
        obtain ⟨l, hl⟩ := ih (windowEnd text maxSize s) (by omega)
        rw [hl]
        exact ⟨_, rfl⟩
    · rw [splitGo, if_neg hs]
      exact ⟨[], rfl⟩

/-- C10: splitIntoChunks terminates with a finite chunk list for every
input text whenever maxChunkSize ≥ 1 and overlap ≤ maxChunkSize / 2, which
covers the defaults (4000, 200) and every call site in the repository. -/
theorem c10_split_terminates (text : Text) (maxSize overlap : Nat)
    (hM : 1 ≤ maxSize) (ho : overlap ≤ maxSize / 2) :
    ∃ chunks, splitIntoChunks text maxSize overlap = some chunks := by
  unfold splitIntoChunks
  by_cases hsmall : text.length ≤ maxSize
  · exact ⟨[text], by rw [if_pos hsmall]⟩
  · rw [if_neg hsmall]
    exact splitGo_total text maxSize overlap hM ho (text.length + 1) 0 (by omega)

/-- The length of a substring slice. -/
theorem length_substringJS (l : Text) (s e : Nat) :
    (substringJS l s e).length = min e l.length - s := by
  simp [substringJS]

/-- Trimming never lengthens a string. -/
theorem jsTrim_length_le (l : Text) : (jsTrim l).length ≤ l.length := by
  unfold jsTrim
  rw [List.length_reverse]
  calc ((l.dropWhile isJsWhitespace).reverse.dropWhile isJsWhitespace).length
      ≤ (l.dropWhile isJsWhitespace).reverse.length :=
        (List.dropWhile_suffix _).sublist.length_le
    _ = (l.dropWhile isJsWhitespace).length := List.length_reverse _
    _ ≤ l.length := (List.dropWhile_suffix _).sublist.length_le

/-- lastIndexOf returns an index below the length of the string. -/
theorem lastIndexOf_lt_length (c : Char) (l : Text) :
    lastIndexOf c l < (l.length : Int) := by
  unfold lastIndexOf
  cases h : l.reverse.findIdx? (fun x => x = c) with
  | none =>
    show (-1 : Int) < (l.length : Int)
    have : (0 : Int) ≤ l.length := Int.ofNat_nonneg _
    omega
  | some i =>
    show ((l.length - 1 - i : Nat) : Int) < (l.length : Int)
    have hne : l ≠ [] := by
      intro he
      subst he
      simp at h
    have hlen : 1 ≤ l.length := List.length_pos.mpr hne
    have : l.length - 1 - i < l.length := by omega
    exact_mod_cast this

/-- The break point lies below the window length. -/
theorem windowBreak_lt (text : Text) (maxSize startIndex : Nat) :
    windowBreak text maxSize startIndex <
      ((windowChunk text maxSize startIndex).length : Int) := by
  unfold windowBreak
  exact max_lt (lastIndexOf_lt_length _ _)
    (max_lt (lastIndexOf_lt_length _ _) (lastIndexOf_lt_length _ _))

/-- The window length in terms of the window edge. -/
theorem windowChunk_length (text : Text) (maxSize startIndex : Nat) :
    (windowChunk text maxSize startIndex).length =
      windowEnd text maxSize startIndex - startIndex := by
  unfold windowChunk
  rw [length_substringJS]
  unfold windowEnd
  omega

/-- One iteration of the splitIntoChunks loop, for a start index inside
the text: the produced chunk never exceeds maxSize before trimming, and
for a non-final window the next start index advances by at most
maxSize - overlap; the final window's next start index is the text
length. -/
theorem splitGo_step (text : Text) (maxSize overlap f s : Nat) (hs : s < text.length) :
    ∃ s' ch, splitGo text maxSize overlap (f + 1) s =
        (splitGo text maxSize overlap f s').map (jsTrim ch :: ·) ∧
      ch.length ≤ maxSize ∧
      (s + maxSize < text.length → s' ≤ s + (maxSize - overlap)) ∧
      (¬ s + maxSize < text.length → s' = text.length) := by
  have hwe : windowEnd text maxSize s = min (s + maxSize) text.length := rfl
  rw [splitGo, if_pos hs]
  by_cases hfin : windowEnd text maxSize s < text.length
  · have hchl : (windowChunk text maxSize s).length =
        windowEnd text maxSize s - s := windowChunk_length text maxSize s
    have hblt := windowBreak_lt text maxSize s
    by_cases hbp : 2 * windowBreak text maxSize s > ((maxSize : Nat) : Int)
    · rw [if_pos hfin, if_pos hbp]
      refine ⟨s + (windowBreak text maxSize s).toNat + 1 - overlap,
        substringJS text s (s + (windowBreak text maxSize s).toNat + 1),
        rfl, ?_, ?_, ?_⟩
      · rw [length_substringJS]
        omega
      · intro _
        omega
      · intro h'
        omega
    · rw [if_pos hfin, if_neg hbp]
      refine ⟨windowEnd text maxSize s - overlap, windowChunk text maxSize s,
        rfl, ?_, ?_, ?_⟩
      · rw [hchl]
        omega
      · intro _
        omega
      · intro h'
        omega
  · rw [if_neg hfin]
    refine ⟨windowEnd text maxSize s, windowChunk text maxSize s, rfl, ?_, ?_, ?_⟩
    · rw [windowChunk_length]
      omega
    · intro h'
      omega
    · intro _
      omega

/-- A loop run entered with a start index inside the text produces at
least one chunk. -/
theorem splitGo_pos (text : Text) (maxSize overlap : Nat) (fuel s : Nat) (l : List Text)
    (h : splitGo text maxSize overlap fuel s = some l) (hs : s < text.length) :
    1 ≤ l.length := by
  cases fuel with
  | zero => simp [splitGo] at h
  | succ f =>
    obtain ⟨s', ch, heq, -, -, -⟩ := splitGo_step text maxSize overlap f s hs
    rw [heq] at h
    cases h2 : splitGo text maxSize overlap f s' with
    | none => rw [h2] at h; simp at h
    | some l' =>
      rw [h2] at h
      simp only [Option.map_some', Option.some.injEq] at h
      rw [← h]
      simp

/-- Every chunk the loop produces is at most maxSize long. -/
theorem splitGo_chunks_le (text : Text) (maxSize overlap : Nat) :
    ∀ fuel s l, splitGo text maxSize overlap fuel s = some l →
      ∀ ch ∈ l, ch.length ≤ maxSize := by
  intro fuel
  induction fuel with
  | zero => intro s l h; simp [splitGo] at h
  | succ f ih =>
    intro s l h
    by_cases hs : s < text.length
    · obtain ⟨s', c, heq, hlen, -, -⟩ := splitGo_step text maxSize overlap f s hs
      rw [heq] at h
      cases h2 : splitGo text maxSize overlap f s' with
      | none => rw [h2] at h; simp at h
      | some l' =>
        rw [h2] at h
        simp only [Option.map_some', Option.some.injEq] at h
        intro ch hch
        rw [← h] at hch
        rcases List.mem_cons.mp hch with hc | hc
        · rw [hc]
          exact le_trans (jsTrim_length_le c) hlen
        · exact ih s' l' h2 ch hc
    · rw [splitGo, if_neg hs] at h
      simp only [Option.some.injEq] at h
      rw [← h]
      intro ch hch
      simp at hch

/-- A lower bound on the number of chunks: if more than
k * (maxSize - overlap) + maxSize characters remain, the loop produces at
least k + 2 chunks. -/
theorem splitGo_count (text : Text) (maxSize overlap : Nat) :
    ∀ k fuel s l, splitGo text maxSize overlap fuel s = some l →
      s + k * (maxSize - overlap) + maxSize < text.length → k + 2 ≤ l.length := by
  intro k
  induction k with
  | zero =>
    intro fuel s l h hlt
    cases fuel with
    | zero => simp [splitGo] at h
    | succ f =>
      obtain ⟨s', ch, heq, -, hadv, -⟩ := splitGo_step text maxSize overlap f s (by omega)
      rw [heq] at h
      cases h2 : splitGo text maxSize overlap f s' with
      | none => rw [h2] at h; simp at h
      | some l' =>
        rw [h2] at h
        simp only [Option.map_some', Option.some.injEq] at h
        have hs' : s' < text.length := by
          have := hadv (by omega)
          omega
        have hpos := splitGo_pos text maxSize overlap f s' l' h2 hs'
        rw [← h]
        simp only [List.length_cons]
        omega
  | succ k ih =>
    intro fuel s l h hlt
    rw [Nat.succ_mul] at hlt
    have hK : 0 ≤ k * (maxSize - overlap) := Nat.zero_le _
    generalize hKeq : k * (maxSize - overlap) = K at hlt ih
    cases fuel with
    | zero => simp [splitGo] at h
    | succ f =>
      obtain ⟨s', ch, heq, -, hadv, -⟩ := splitGo_step text maxSize overlap f s (by omega)
      rw [heq] at h
      cases h2 : splitGo text maxSize overlap f s' with
      | none => rw [h2] at h; simp at h
      | some l' =>
        rw [h2] at h
        simp only [Option.map_some', Option.some.injEq] at h
        have hs' : s' ≤ s + (maxSize - overlap) := hadv (by omega)
        have := ih f s' l' h2 (by omega)
        rw [← h]
        simp only [List.length_cons]
        omega

/-- C7: every chunk splitIntoChunks produces is at most maxChunkSize
long, and for a text of size 3.5 times a positive maxChunkSize split with
overlap 200 the plan has at least 4 chunks. -/
theorem c7_chunk_bounds (text : Text) (maxSize overlap : Nat) (l : List Text)
    (h : splitIntoChunks text maxSize overlap = some l) :
    (∀ ch ∈ l, ch.length ≤ maxSize) ∧
      (overlap = 200 → 0 < maxSize → 2 * text.length = 7 * maxSize → 4 ≤ l.length) := by
  unfold splitIntoChunks at h
  by_cases hsmall : text.length ≤ maxSize
  · rw [if_pos hsmall] at h
    simp only [Option.some.injEq] at h
    constructor
    · intro ch hch
      rw [← h] at hch
      rcases List.mem_singleton.mp hch with hc
      rw [hc]
      exact hsmall
    · intro _ hM hlen
      omega
  · rw [if_neg hsmall] at h
    refine ⟨fun ch hch => splitGo_chunks_le text maxSize overlap _ _ _ h ch hch, ?_⟩
    intro ho hM hlen
    subst ho
    have := splitGo_count text maxSize 200 2 (text.length + 1) 0 l h (by omega)
    omega

/-- findIdx? finds nothing in a replicate whose element fails the test. -/
theorem findIdx?_replicate_none {p : Char → Bool} {a : Char} (h : p a = false) :
    ∀ n : Nat, (List.replicate n a).findIdx? p = none := by
  intro n
  induction n with
  | zero => simp
  | succ m ih => simp [List.replicate_succ, List.findIdx?_cons, h, ih]

/-- lastIndexOf misses on a replicate of a different character. -/
theorem lastIndexOf_replicate (n : Nat) {a c : Char} (h : a ≠ c) :
    lastIndexOf c (List.replicate n a) = -1 := by
  unfold lastIndexOf
  rw [List.reverse_replicate, findIdx?_replicate_none (by simp [h]) n]

/-- dropWhile keeps a replicate whose element fails the test. -/
theorem dropWhile_replicate {p : Char → Bool} {a : Char} (h : p a = false) (n : Nat) :
    (List.replicate n a).dropWhile p = List.replicate n a := by
  cases n with
  | zero => simp
  | succ m => simp [List.replicate_succ, List.dropWhile_cons, h]

/-- Trimming is the identity on a replicate of a non-whitespace
character. -/
theorem jsTrim_replicate {a : Char} (h : isJsWhitespace a = false) (n : Nat) :
    jsTrim (List.replicate n a) = List.replicate n a := by
  unfold jsTrim
  rw [dropWhile_replicate h, List.reverse_replicate, dropWhile_replicate h,
    List.reverse_replicate]

/-- Substring slices of replicates are replicates. -/
theorem substringJS_replicate (a : Char) (n s e : Nat) :
    substringJS (List.replicate n a) s e = List.replicate (min e n - s) a := by
  unfold substringJS
  rw [List.take_replicate, List.drop_replicate]

theorem windowEnd_replicate (L M s : Nat) :
    windowEnd (List.replicate L 'a') M s = min (s + M) L := by
  unfold windowEnd
  rw [List.length_replicate]

theorem windowChunk_replicate (L M s : Nat) :
    windowChunk (List.replicate L 'a') M s =
      List.replicate (min (s + M) L - s) 'a' := by
  unfold windowChunk
  rw [substringJS_replicate, windowEnd_replicate]
  congr 1
  omega

/-- A run of identical letters contains no period, line break or space,
so no window over it has a break point. -/
theorem windowBreak_replicate (L M s : Nat) :
    windowBreak (List.replicate L 'a') M s = -1 := by
  unfold windowBreak
  rw [windowChunk_replicate]
  rw [lastIndexOf_replicate _ (by decide), lastIndexOf_replicate _ (by decide),
    lastIndexOf_replicate _ (by decide)]
  decide

/-- One non-final window over a run of letters: the full window is the
chunk and the next start index backs up by the overlap. -/
theorem splitGo_replicate_mid (L M o fuel s : Nat) (hf : 1 ≤ fuel) (hwin : s + M < L) :
    splitGo (List.replicate L 'a') M o fuel s =
      (splitGo (List.replicate L 'a') M o (fuel - 1) (s + M - o)).map
        (List.replicate M 'a' :: ·) := by
  cases fuel with
  | zero => omega
  | succ f =>
    simp only [Nat.succ_sub_one]
    have hs : s < (List.replicate L 'a').length := by
      rw [List.length_replicate]; omega
    have hwe : windowEnd (List.replicate L 'a') M s = s + M := by
      rw [windowEnd_replicate]; omega
    have hfin : windowEnd (List.replicate L 'a') M s < (List.replicate L 'a').length := by
      rw [hwe, List.length_replicate]; omega
    have hbp : ¬ (2 * windowBreak (List.replicate L 'a') M s > ((M : Nat) : Int)) := by
      rw [windowBreak_replicate]
      omega
    rw [splitGo, if_pos hs, if_pos hfin, if_neg hbp, hwe, windowChunk_replicate]
    rw [show min (s + M) L - s = M from by omega]
    rw [jsTrim_replicate (by decide)]

/-- The final window over a run of letters: the remainder is the chunk
and the next start index is the text length. -/
theorem splitGo_replicate_last (L M o fuel s : Nat) (hf : 1 ≤ fuel) (hs : s < L)
    (hfin : L ≤ s + M) :
    splitGo (List.replicate L 'a') M o fuel s =
      (splitGo (List.replicate L 'a') M o (fuel - 1) L).map
        (List.replicate (L - s) 'a' :: ·) := by
  cases fuel with
  | zero => omega
  | succ f =>
    simp only [Nat.succ_sub_one]
    have hs' : s < (List.replicate L 'a').length := by
      rw [List.length_replicate]; omega
    have hwe : windowEnd (List.replicate L 'a') M s = L := by
      rw [windowEnd_replicate]; omega
    have hnfin : ¬ (windowEnd (List.replicate L 'a') M s <
        (List.replicate L 'a').length) := by
      rw [hwe, List.length_replicate]; omega
    rw [splitGo, if_pos hs', if_neg hnfin, hwe, windowChunk_replicate]
    rw [show min (s + M) L - s = L - s from by omega]
    rw [jsTrim_replicate (by decide)]

/-- A loop entered past the end of the text exits at once. -/
theorem splitGo_exit (text : Text) (M o fuel s : Nat) (hf : 1 ≤ fuel)
    (hs : text.length ≤ s) :
    splitGo text M o fuel s = some [] := by
  cases fuel with
  | zero => omega
  | succ f => rw [splitGo, if_neg (by omega)]

/-- Closed form of the split the simplifyArticle pipeline performs on a
run of 16001 letters (just over its 16000-character limit). -/
theorem splitIntoChunks_rep16001 :
    splitIntoChunks (List.replicate 16001 'a') 16000 200 =
      some [List.replicate 16000 'a', List.replicate 201 'a'] := by
  unfold splitIntoChunks
  rw [if_neg (by rw [List.length_replicate]; omega), List.length_replicate]
  rw [splitGo_replicate_mid 16001 16000 200 (16001 + 1) 0 (by omega) (by omega)]
  norm_num
  rw [splitGo_replicate_last 16001 16000 200 16001 15800 (by omega) (by omega)
    (by omega)]
  norm_num
  rw [splitGo_exit _ 16000 200 16000 16001 (by omega)
    (by rw [List.length_replicate])]

/-- Closed form of the default split of a run of 14000 letters
(3.5 times the default maxChunkSize 4000, overlap 200). -/
theorem splitIntoChunks_rep14000 :
    splitIntoChunks (List.replicate 14000 'a') 4000 200 =
      some [List.replicate 4000 'a', List.replicate 4000 'a',
        List.replicate 4000 'a', List.replicate 2600 'a'] := by
  unfold splitIntoChunks
  rw [if_neg (by rw [List.length_replicate]; omega), List.length_replicate]
  rw [splitGo_replicate_mid 14000 4000 200 (14000 + 1) 0 (by omega) (by omega)]
  norm_num
  rw [splitGo_replicate_mid 14000 4000 200 14000 3800 (by omega) (by omega)]
  norm_num
  rw [splitGo_replicate_mid 14000 4000 200 13999 7600 (by omega) (by omega)]
  norm_num
  rw [splitGo_replicate_last 14000 4000 200 13998 11400 (by omega) (by omega)
    (by omega)]
  norm_num
  rw [splitGo_exit _ 4000 200 13997 14000 (by omega)
    (by rw [List.length_replicate])]

/-- Joining a two-chunk summary list with the blank-line separator. -/
theorem intercalate_pair (sep a b : Text) :
    List.intercalate sep [a, b] = a ++ sep ++ b := by
  simp [List.intercalate, List.intersperse]

/-- Witness for c7_chunk_bounds on a run of 14000 letters with the
default options. -/
theorem c7_chunk_bounds_witness :
    splitIntoChunks (List.replicate 14000 'a') 4000 200 =
        some [List.replicate 4000 'a', List.replicate 4000 'a',
          List.replicate 4000 'a', List.replicate 2600 'a'] ∧
      (List.replicate 2600 'a').length ≤ 4000 ∧
      4 ≤ [List.replicate 4000 'a', List.replicate 4000 'a',
        List.replicate 4000 'a', List.replicate 2600 'a'].length :=
  ⟨splitIntoChunks_rep14000,
   (c7_chunk_bounds _ 4000 200 _ splitIntoChunks_rep14000).1 _
     (List.mem_cons_of_mem _ (List.mem_cons_of_mem _ (List.mem_cons_of_mem _
       (List.mem_cons_self _ _)))),
   (c7_chunk_bounds _ 4000 200 _ splitIntoChunks_rep14000).2 rfl (by omega)
     (by rw [List.length_replicate])⟩

/-- The chunk loop with a signal that stays clear processes every chunk
in order and collects every summary. -/
theorem chunkLoop_ok (oracle : Text → Text) (signal : Nat → Bool) :
    ∀ (chunks : List Text) (i : Nat),
      (∀ m, m < chunks.length → signal (2 + i + m) = false) →
      chunkLoop oracle signal chunks i =
        (.ok (chunks.map oracle), chunks.map SimEvent.process) := by
  intro chunks
  induction chunks with
  | nil => intro i h; simp [chunkLoop]
  | cons c rest ih =>
    intro i h
    have h0 : signal (2 + i) = false := by
      have := h 0 (by simp)
      simpa using this
    have hrest : ∀ m, m < rest.length → signal (2 + (i + 1) + m) = false := by
      intro m hm
      have he : 2 + (i + 1) + m = 2 + i + (m + 1) := by omega
      rw [he]
      exact h (m + 1) (by simp only [List.length_cons]; omega)
    rw [chunkLoop, if_neg (by simp [h0]), ih (i + 1) hrest]
    simp [Except.map]

/-- The chunk loop with a signal that is clear for the first k chunks and
set at the check before chunk k throws the cancellation error there; only
the first k chunks have been sent to the host. -/
theorem chunkLoop_abort (oracle : Text → Text) (signal : Nat → Bool) :
    ∀ (chunks : List Text) (i k : Nat), k < chunks.length →
      (∀ m, m < k → signal (2 + i + m) = false) →
      signal (2 + i + k) = true →
      chunkLoop oracle signal chunks i =
        (.error "Operation cancelled", (chunks.take k).map SimEvent.process) := by
  intro chunks
  induction chunks with
  | nil => intro i k hk; simp at hk
  | cons c rest ih =>
    intro i k hk hlow hktrue
    cases k with
    | zero =>
      have h0 : signal (2 + i) = true := by simpa using hktrue
      rw [chunkLoop, if_pos (by simp [h0])]
      simp
    | succ k' =>
      have h0 : signal (2 + i) = false := by
        have := hlow 0 (by omega)
        simpa using this
      have hlow' : ∀ m, m < k' → signal (2 + (i + 1) + m) = false := by
        intro m hm
        have he : 2 + (i + 1) + m = 2 + i + (m + 1) := by omega
        rw [he]
        exact hlow (m + 1) (by omega)
      have hk' : signal (2 + (i + 1) + k') = true := by
        have he : 2 + (i + 1) + k' = 2 + i + (k' + 1) := by omega
        rw [he]
        exact hktrue
      rw [chunkLoop, if_neg (by simp [h0]),
        ih (i + 1) k' (by simp only [List.length_cons] at hk; omega) hlow' hk']
      simp [Except.map]

/-- C6: on oversized content whose folded chunk summaries are still
oversized, simplifyArticle performs exactly one additional host process
call — a single final pass over the joined summaries on the same acquired
session, with no further chunking — and returns that call's result; the
total host process calls are exactly one per chunk plus this single extra
pass. -/
theorem c6_single_extra_fold (content : Text) (oracle : Text → Text) (chunks : List Text)
    (hbig : MAX_INPUT_TOKENS < estimateTokens content)
    (hsplit : splitIntoChunks content (MAX_INPUT_TOKENS * CHARS_PER_TOKEN) 200 =
      some chunks)
    (hfold : MAX_INPUT_TOKENS <
      estimateTokens (List.intercalate ['\n', '\n'] (chunks.map oracle))) :
    simplifyArticle content (fun _ => false) oracle =
      (.ok (oracle (List.intercalate ['\n', '\n'] (chunks.map oracle))),
       SimEvent.acquire :: chunks.map SimEvent.process ++
         [SimEvent.process (List.intercalate ['\n', '\n'] (chunks.map oracle))]) := by
  have hLoop := chunkLoop_ok oracle (fun _ => false) chunks 0 (fun m _ => rfl)
  unfold simplifyArticle simplifyTry
  rw [hsplit] at *
  simp only [Bool.false_eq_true, if_false, if_pos hbig, hsplit, hLoop, if_pos hfold]

/-- C9: the cancellation behaviour of simplifyArticle.  First: a signal
set before acquisition cancels with no acquisition and no host call; the
entry check throws before the try block, so this rejection carries the
raw 'Operation cancelled' message, unreached by the catch clause's
mapping.  Second: a signal set at the check before chunk k (and clear
before that) yields host process calls for exactly the first k chunks —
none for chunks k through n — and the call rejects with the mapped
cancellation error.  Third: a signal set at the check before the final
fold pass cancels with no fold call. -/
theorem c9_cancellation :
    (∀ (content : Text) (signal : Nat → Bool) (oracle : Text → Text),
        signal 0 = true →
        simplifyArticle content signal oracle =
          (.error "Operation cancelled", [])) ∧
      (∀ (content : Text) (signal : Nat → Bool) (oracle : Text → Text)
          (chunks : List Text) (k : Nat),
        MAX_INPUT_TOKENS < estimateTokens content →
        splitIntoChunks content (MAX_INPUT_TOKENS * CHARS_PER_TOKEN) 200 = some chunks →
        k < chunks.length →
        (∀ j, j < 2 + k → signal j = false) →
        signal (2 + k) = true →
        simplifyArticle content signal oracle =
          (.error "Simplification was cancelled",
           SimEvent.acquire :: (chunks.take k).map SimEvent.process)) ∧
      (∀ (content : Text) (signal : Nat → Bool) (oracle : Text → Text)
          (chunks : List Text),
        MAX_INPUT_TOKENS < estimateTokens content →
        splitIntoChunks content (MAX_INPUT_TOKENS * CHARS_PER_TOKEN) 200 = some chunks →
        MAX_INPUT_TOKENS <
          estimateTokens (List.intercalate ['\n', '\n'] (chunks.map oracle)) →
        (∀ j, j < 2 + chunks.length → signal j = false) →
        signal (2 + chunks.length) = true →
        simplifyArticle content signal oracle =
          (.error "Simplification was cancelled",
           SimEvent.acquire :: chunks.map SimEvent.process)) := by
  have hmap : mapSimplifyError "Operation cancelled" = "Simplification was cancelled" := by
    decide
  refine ⟨?_, ?_, ?_⟩
  · intro content signal oracle h0
    unfold simplifyArticle
    rw [if_pos (by simp [h0])]
  · intro content signal oracle chunks k hbig hsplit hk hlow hktrue
    have h0 : signal 0 = false := hlow 0 (by omega)
    have h1 : signal 1 = false := hlow 1 (by omega)
    have hLoop := chunkLoop_abort oracle signal chunks 0 k hk
      (fun m hm => by
        have he : 2 + 0 + m = 2 + m := by omega
        rw [he]
        exact hlow (2 + m) (by omega))
      (by
        have he : 2 + 0 + k = 2 + k := by omega
        rw [he]
        exact hktrue)
    unfold simplifyArticle simplifyTry
    simp only [h0, h1, Bool.false_eq_true, if_false, if_pos hbig, hsplit, hLoop, hmap]
  · intro content signal oracle chunks hbig hsplit hfold hlow hktrue
    have h0 : signal 0 = false := hlow 0 (by omega)
    have h1 : signal 1 = false := hlow 1 (by omega)
    have hLoop := chunkLoop_ok oracle signal chunks 0
      (fun m hm => by
        have he : 2 + 0 + m = 2 + m := by omega
        rw [he]
        exact hlow (2 + m) (by omega))
    unfold simplifyArticle simplifyTry
    simp only [h0, h1, Bool.false_eq_true, if_false, if_pos hbig, hsplit, hLoop,
      if_pos hfold, hktrue, if_true, hmap]

/-- A run of 16001 letters is just over the 4000-token input limit. -/
theorem rep16001_oversized :
    MAX_INPUT_TOKENS < estimateTokens (List.replicate 16001 'a') := by
  unfold MAX_INPUT_TOKENS estimateTokens
  rw [List.length_replicate]
  norm_num

/-- The pipeline's split of the 16001-letter run, phrased with the
pipeline's maxChunkSize expression. -/
theorem split16001_hyp :
    splitIntoChunks (List.replicate 16001 'a')
        (MAX_INPUT_TOKENS * CHARS_PER_TOKEN) 200 =
      some [List.replicate 16000 'a', List.replicate 201 'a'] := by
  rw [show MAX_INPUT_TOKENS * CHARS_PER_TOKEN = 16000 from rfl]
  exact splitIntoChunks_rep16001

/-- With the identity oracle, the folded summaries of the 16001-letter
run are still over the input limit. -/
theorem fold16001_oversized :
    MAX_INPUT_TOKENS < estimateTokens (List.intercalate ['\n', '\n']
      ([List.replicate 16000 'a', List.replicate 201 'a'].map id)) := by
  simp only [List.map_id]
  rw [intercalate_pair]
  unfold MAX_INPUT_TOKENS estimateTokens
  simp only [List.length_append, List.length_replicate, List.length_cons,
    List.length_nil]
  norm_num

/-- Witness for c6_single_extra_fold on the 16001-letter run with the
identity oracle: two chunk calls plus exactly one fold call. -/
theorem c6_single_extra_fold_witness :
    simplifyArticle (List.replicate 16001 'a') (fun _ => false) id =
      (.ok (id (List.intercalate ['\n', '\n']
        ([List.replicate 16000 'a', List.replicate 201 'a'].map id))),
       SimEvent.acquire ::
         [List.replicate 16000 'a', List.replicate 201 'a'].map SimEvent.process ++
         [SimEvent.process (List.intercalate ['\n', '\n']
           ([List.replicate 16000 'a', List.replicate 201 'a'].map id))]) :=
  c6_single_extra_fold (List.replicate 16001 'a') id
    [List.replicate 16000 'a', List.replicate 201 'a']
    rep16001_oversized split16001_hyp fold16001_oversized

/-- Witness for c9_cancellation: a signal set from the start cancels with
no acquisition (rejecting with the unmapped entry message); a signal set
at the check before chunk 1 of 2 leaves only chunk 0 processed; a signal
set at the check before the fold pass leaves both chunks processed but no
fold call. -/
theorem c9_cancellation_witness :
    simplifyArticle ([] : Text) (fun _ => true) id =
        (.error "Operation cancelled", []) ∧
      simplifyArticle (List.replicate 16001 'a') (fun j => decide (3 ≤ j)) id =
        (.error "Simplification was cancelled",
         SimEvent.acquire ::
           ([List.replicate 16000 'a', List.replicate 201 'a'].take 1).map
             SimEvent.process) ∧
      simplifyArticle (List.replicate 16001 'a') (fun j => decide (4 ≤ j)) id =
        (.error "Simplification was cancelled",
         SimEvent.acquire ::
           [List.replicate 16000 'a', List.replicate 201 'a'].map
             SimEvent.process) :=
  ⟨c9_cancellation.1 [] (fun _ => true) id rfl,
   c9_cancellation.2.1 (List.replicate 16001 'a') (fun j => decide (3 ≤ j)) id
     [List.replicate 16000 'a', List.replicate 201 'a'] 1
     rep16001_oversized split16001_hyp (by norm_num) (by decide) (by decide),
   c9_cancellation.2.2 (List.replicate 16001 'a') (fun j => decide (4 ≤ j)) id
     [List.replicate 16000 'a', List.replicate 201 'a']
     rep16001_oversized split16001_hyp fold16001_oversized
     (by decide) (by decide)⟩

theorem max_add_right (a b : Nat) : max a (a + b) = a + b :=
  Nat.max_eq_right (Nat.le_add_right _ _)

/-- Unfolding one step of the un-interleaved getSession driver. -/
theorem driveGet_succ (env : HostEnv) (cfg : SessionConfig) (f : Nat) (st : PoolState)
    (ph : GetPhase) :
    driveGet env cfg (f + 1) st ph =
      match stepG env cfg st ph with
      | (st2, .inl ph2) => driveGet env cfg f st2 ph2
      | (st2, .inr h) => (st2, some h) := rfl

/-- Map.get on an association list whose head has the key. -/
theorem mapGet_cons_self (k : String) (m : ManagedSession)
    (rest : List (String × ManagedSession)) :
    mapGet ((k, m) :: rest) k = some m := by
  simp [mapGet, List.find?_cons_of_pos]

/-- Map.set on a singleton map with the same key replaces the entry. -/
theorem mapSet_single (k : String) (m v : ManagedSession) :
    mapSet [(k, m)] k v = [(k, v)] := by
  simp [mapSet, List.find?_cons_of_pos]

/-- The fast path of getSession (lines 42-48): with a live session in the
map, one atomic step updates lastUsedAt and useCount, logs the reuse and
returns the stored handle — no host-runtime interaction at all. -/
theorem acquireOnce_hit (env : HostEnv) (cfg : SessionConfig) (st : PoolState)
    (m : ManagedSession) (hm : mapGet st.sessions (sessionKey cfg) = some m) :
    acquireOnce env cfg st =
      ({ st with
          sessions := mapSet st.sessions (sessionKey cfg)
            { m with lastUsedAt := st.now, useCount := m.useCount + 1 },
          events := st.events ++ [.reuse (sessionKey cfg) st.now] }, some m.handle) := by
  unfold acquireOnce
  rw [show st.sessions.length + 8 = (st.sessions.length + 7) + 1 from rfl, driveGet_succ]
  simp only [stepG, Nat.max_self, hm]

/-- A getSession call against an empty pool runs the miss path: no sweep
victims, no eviction, possibly a rate wait, then the availability probe,
one host create call and the insertion of the new session, whose
lastUsedAt equals the completion time. -/
theorem acquireOnce_empty (env : HostEnv) (cfg : SessionConfig) (st : PoolState)
    (hs : st.sessions = []) (hlc : st.lastCreationTime = 0) :
    ∃ T tc,
      (acquireOnce env cfg st).1.sessions =
          [(sessionKey cfg,
            { handle := st.nextHandle, type := cfg.type, createdAt := T,
              lastUsedAt := T, useCount := 1 })] ∧
        (acquireOnce env cfg st).1.now = T ∧
        (acquireOnce env cfg st).1.events =
          st.events ++ [.createCall (sessionKey cfg) tc,
            .created (sessionKey cfg) st.nextHandle T] := by
  unfold acquireOnce
  rw [hs]
  simp only [List.length_nil, Nat.zero_add]
  rw [show (8 : Nat) = 7 + 1 from rfl, driveGet_succ]
  by_cases hr : st.now < MIN_CREATION_INTERVAL
  all_goals
    simp only [stepG, Nat.max_self, hs, mapGet, List.find?_nil, Option.map_none',
      expiredKeys, List.filter_nil, List.map_nil, afterCleanup, rateOrCreate, hlc,
      Nat.sub_zero, MAX_SESSIONS, List.length_nil, oldestSession, List.foldl_nil,
      hr, if_true, if_false, reduceIte, ite_self]
  · rw [show (7 : Nat) = 6 + 1 from rfl, driveGet_succ]
    simp only [stepG, max_add_right]
    rw [show (6 : Nat) = 5 + 1 from rfl, driveGet_succ]
    simp only [stepG, max_add_right]
    rw [show (5 : Nat) = 4 + 1 from rfl, driveGet_succ]
    simp only [stepG, max_add_right, mapSet, List.find?_nil, Option.isSome_none,
      Bool.false_eq_true, if_false, List.nil_append, List.append_assoc,
      List.singleton_append]
    exact ⟨_, _, rfl, rfl, rfl⟩
  · rw [show (7 : Nat) = 6 + 1 from rfl, driveGet_succ]
    simp only [stepG, max_add_right]
    rw [show (6 : Nat) = 5 + 1 from rfl, driveGet_succ]
    simp only [stepG, max_add_right, mapSet, List.find?_nil, Option.isSome_none,
      Bool.false_eq_true, if_false, List.nil_append, List.append_assoc,
      List.singleton_append]
    exact ⟨_, _, rfl, rfl, rfl⟩

/-- Back-to-back same-config acquires after the pool holds the session:
every call takes the fast path, so the session map keeps exactly the one
entry, useCount grows by one per call, lastUsedAt tracks the clock, and
no create call is ever added to the log. -/
theorem acquireSeq_reuse (env : HostEnv) (cfg : SessionConfig) :
    ∀ (gaps : List Nat) (st : PoolState) (m : ManagedSession),
      st.sessions = [(sessionKey cfg, m)] →
      m.lastUsedAt = st.now →
      ∃ m', (acquireSeq env cfg st gaps).sessions = [(sessionKey cfg, m')] ∧
        m'.useCount = m.useCount + gaps.length ∧
        m'.lastUsedAt = (acquireSeq env cfg st gaps).now ∧
        createCalls (acquireSeq env cfg st gaps).events = createCalls st.events ∧
        (reuseEvents (acquireSeq env cfg st gaps).events).length =
          (reuseEvents st.events).length + gaps.length := by
  intro gaps
  induction gaps with
  | nil =>
    intro st m hsess hlu
    exact ⟨m, by simpa [acquireSeq] using hsess, by simp [acquireSeq],
      by simpa [acquireSeq] using hlu, by simp [acquireSeq], by simp [acquireSeq]⟩
  | cons g gs ih =>
    intro st m hsess hlu
    rw [acquireSeq]
    have hm : mapGet ({ st with now := st.now + g } : PoolState).sessions
        (sessionKey cfg) = some m := by
      show mapGet st.sessions (sessionKey cfg) = some m
      rw [hsess]
      exact mapGet_cons_self _ _ _
    rw [acquireOnce_hit env cfg { st with now := st.now + g } m hm]
    dsimp only
    rw [hsess, mapSet_single]
    obtain ⟨m2, h1, h2, h3, h4, h5⟩ := ih
      { sessions := [(sessionKey cfg,
          { handle := m.handle, type := m.type, createdAt := m.createdAt,
            lastUsedAt := st.now + g, useCount := m.useCount + 1 })],
        lastCreationTime := st.lastCreationTime, nextHandle := st.nextHandle,
        now := st.now + g,
        events := st.events ++ [.reuse (sessionKey cfg) (st.now + g)] }
      { handle := m.handle, type := m.type, createdAt := m.createdAt,
        lastUsedAt := st.now + g, useCount := m.useCount + 1 }
      rfl rfl
    refine ⟨m2, h1, ?_, h3, ?_, ?_⟩
    · simp only [List.length_cons] at h2 ⊢
      omega
    · rw [h4]
      simp [createCalls, List.filter_append, List.filter]
    · rw [h5]
      simp [reuseEvents, List.filter_append, List.filter, List.length_append]
      omega

/-- C5: back-to-back getSession calls for one config starting from a
fresh pool, with arbitrary idle gaps within the idle timeout, make
exactly one host create call; every later call takes the fast path
(one reuse event per call, useCount incremented each time). -/
theorem c5_same_config_single_create (env : HostEnv) (cfg : SessionConfig) (n0 : Nat)
    (gaps : List Nat) (_hgaps : ∀ g ∈ gaps, g ≤ SESSION_TIMEOUT) :
    (createCalls (acquireSeq env cfg (poolStart n0) (0 :: gaps)).events).length = 1 ∧
      (reuseEvents (acquireSeq env cfg (poolStart n0) (0 :: gaps)).events).length =
        gaps.length ∧
      ∃ m, (acquireSeq env cfg (poolStart n0) (0 :: gaps)).sessions =
          [(sessionKey cfg, m)] ∧ m.useCount = 1 + gaps.length := by
  rw [acquireSeq]
  obtain ⟨T, tc, hsess, hnow, hevents⟩ :=
    acquireOnce_empty env cfg { poolStart n0 with now := (poolStart n0).now + 0 }
      (by simp [poolStart]) (by simp [poolStart])
  obtain ⟨m', h1, h2, h3, h4, h5⟩ := acquireSeq_reuse env cfg gaps _ _ hsess
    (by rw [hnow])
  refine ⟨?_, ?_, m', h1, by simpa using h2⟩
  · rw [h4, hevents]
    simp [createCalls, List.filter_append, poolStart, List.filter]
  · rw [h5, hevents]
    simp [reuseEvents, List.filter_append, poolStart, List.filter]

/-- Witness for c5_same_config_single_create: three back-to-back acquires
(gaps of 100 ms and 200 ms). -/
theorem c5_same_config_single_create_witness :
    (createCalls (acquireSeq envZero (cfgOf "X") (poolStart 2000)
        (0 :: [100, 200])).events).length = 1 ∧
      (reuseEvents (acquireSeq envZero (cfgOf "X") (poolStart 2000)
        (0 :: [100, 200])).events).length = [100, 200].length ∧
      ∃ m, (acquireSeq envZero (cfgOf "X") (poolStart 2000)
          (0 :: [100, 200])).sessions =
        [(sessionKey (cfgOf "X"), m)] ∧ m.useCount = 1 + [100, 200].length :=
  c5_same_config_single_create envZero (cfgOf "X") 2000 [100, 200] (by decide)

/-- A successful Map.get returns the payload of an entry of the map. -/
theorem mapGet_mem (l : List (String × ManagedSession)) (k : String) (m : ManagedSession)
    (h : mapGet l k = some m) : ∃ p ∈ l, p.2 = m := by
  unfold mapGet at h
  cases hf : l.find? (fun p => p.1 = k) with
  | none => rw [hf] at h; simp at h
  | some p =>
    rw [hf] at h
    simp only [Option.map_some', Option.some.injEq] at h
    exact ⟨p, List.mem_of_find?_eq_some hf, h⟩

/-- The entry destroyOldestSession picks is an entry of the map. -/
theorem oldestSession_mem :
    ∀ (l : List (String × ManagedSession)) (p : String × ManagedSession),
      oldestSession l = some p → p ∈ l := by
  suffices hgen : ∀ (l : List (String × ManagedSession))
      (acc : Option (String × ManagedSession)) (p : String × ManagedSession),
      l.foldl (fun acc q =>
        match acc with
        | none => some q
        | some r => if q.2.lastUsedAt < r.2.lastUsedAt then some q else acc) acc = some p →
      p ∈ l ∨ acc = some p by
    intro l p h
    rcases hgen l none p h with hm | hm
    · exact hm
    · simp at hm
  intro l
  induction l with
  | nil =>
    intro acc p h
    right
    exact h
  | cons q t ih =>
    intro acc p h
    rw [List.foldl_cons] at h
    rcases ih _ p h with hm | hm
    · exact Or.inl (List.mem_cons_of_mem _ hm)
    · cases acc with
      | none =>
        left
        obtain rfl := Option.some.inj hm
        exact List.mem_cons_self _ _
      | some r =>
        dsimp only at hm
        by_cases hcmp : q.2.lastUsedAt < r.2.lastUsedAt
        · rw [if_pos hcmp] at hm
          left
          obtain rfl := Option.some.inj hm
          exact List.mem_cons_self _ _
        · rw [if_neg hcmp] at hm
          exact Or.inr hm

/-- Map.set only adds the given entry or keeps existing ones. -/
theorem mapSet_mem (l : List (String × ManagedSession)) (k : String) (v : ManagedSession)
    (p : String × ManagedSession) (h : p ∈ mapSet l k v) : p = (k, v) ∨ p ∈ l := by
  unfold mapSet at h
  by_cases hf : (l.find? (fun q => q.1 = k)).isSome
  · rw [if_pos hf] at h
    obtain ⟨q, hq, hpq⟩ := List.mem_map.mp h
    by_cases hqk : q.1 = k
    · left
      rw [← hpq, if_pos hqk]
    · right
      rw [← hpq, if_neg hqk]
      exact hq
  · rw [if_neg hf] at h
    rcases List.mem_append.mp h with hm | hm
    · exact Or.inr hm
    · left
      simpa using hm

/-- Map.delete keeps a subset of the entries. -/
theorem mapDelete_mem (l : List (String × ManagedSession)) (k : String)
    (p : String × ManagedSession) (h : p ∈ mapDelete l k) : p ∈ l :=
  List.mem_of_mem_filter h

/-- A log whose destroyed handles all lie below n contains no destroy
call targeting n. -/
theorem destroyCallsOf_nil_of_lt (n : Nat) :
    ∀ evs : List PoolEvent,
      (∀ h k t, PoolEvent.destroyCall h k t ∈ evs → h < n) →
      destroyCallsOf n evs = [] := by
  intro evs
  induction evs with
  | nil => intro _; rfl
  | cons e rest ih =>
    intro hb
    have hrest := fun h k t hm => hb h k t (List.mem_cons_of_mem _ hm)
    cases e with
    | destroyCall h2 k t =>
      have hne : h2 ≠ n := by
        have := hb h2 k t (List.mem_cons_self _ _)
        omega
      simp [destroyCallsOf, List.filter_cons, hne]
      simpa [destroyCallsOf] using ih hrest
    | reuse k t => simpa [destroyCallsOf, List.filter_cons] using ih hrest
    | createCall k t => simpa [destroyCallsOf, List.filter_cons] using ih hrest
    | created k h2 t => simpa [destroyCallsOf, List.filter_cons] using ih hrest
    | processCall k i t => simpa [destroyCallsOf, List.filter_cons] using ih hrest

/-- The rate-limit continuation is always one of the harmless phases. -/
theorem rateOrCreate_ok (env : HostEnv) (st : PoolState) :
    gPhaseOK st (rateOrCreate env st) := by
  simp only [rateOrCreate]
  split
  · trivial
  · trivial

/-- The resumption after cleanup leaves the state unchanged and suspends
in a phase satisfying the invariant: any eviction victim is captured from
the sessions map, so its handle is below the fresh-handle counter. -/
theorem afterCleanup_solo (env : HostEnv) (st : PoolState)
    (hb : ∀ p ∈ st.sessions, p.2.handle < st.nextHandle) :
    ∃ ph, afterCleanup env st = (st, .inl ph) ∧ gPhaseOK st ph := by
  unfold afterCleanup
  by_cases hcap : MAX_SESSIONS ≤ st.sessions.length
  · rw [if_pos hcap]
    cases ho : oldestSession st.sessions with
    | none => exact ⟨_, rfl, rateOrCreate_ok env st⟩
    | some p => exact ⟨_, rfl, hb p (oldestSession_mem _ _ ho)⟩
  · rw [if_neg hcap]
    exact ⟨_, rfl, rateOrCreate_ok env st⟩

/-- One atomic getSession step from a state satisfying the solo-run
invariant: handle hygiene is preserved, a next suspension satisfies the
phase invariant, and a returned handle has never been the target of a
destroy call.  The key cases: the sweep and the eviction destroy only
handles captured from the sessions map (all below the fresh-handle
counter), and the created handle is the counter value itself, above every
handle destroyed so far. -/
theorem stepG_solo (env : HostEnv) (cfg : SessionConfig) (st : PoolState) (ph : GetPhase)
    (hb : handlesBounded st) (hph : gPhaseOK st ph) :
    handlesBounded (stepG env cfg st ph).1 ∧
      (∀ ph2, (stepG env cfg st ph).2 = .inl ph2 → gPhaseOK (stepG env cfg st ph).1 ph2) ∧
      (∀ h2, (stepG env cfg st ph).2 = .inr h2 →
        destroyCallsOf h2 (stepG env cfg st ph).1.events = []) := by
  obtain ⟨hbs, hbe⟩ := hb
  match ph with
  | .gstart w =>
    have hev : st.events = [] := hph
    cases hg : mapGet st.sessions (sessionKey cfg) with
    | some m =>
      obtain ⟨p, hp, hpm⟩ := mapGet_mem _ _ _ hg
      simp only [stepG, hg]
      refine ⟨⟨?_, ?_⟩, ?_, ?_⟩
      · intro q hq
        rcases mapSet_mem _ _ _ _ hq with hq1 | hq1
        · rw [hq1]
          have := hbs p hp
          rw [hpm] at this
          exact this
        · exact hbs q hq1
      · intro h2 k t hm
        rw [hev] at hm
        simp at hm
      · intro ph2 hph2
        simp at hph2
      · intro h2 hh2
        simp only [Sum.inr.injEq] at hh2
        rw [hev]
        simp [destroyCallsOf, List.filter]
    | none =>
      cases he : expiredKeys { st with now := max st.now w } with
      | nil =>
        simp only [stepG, hg, he]
        obtain ⟨ph2, heq, hok⟩ :=
          afterCleanup_solo env { st with now := max st.now w } hbs
        rw [heq]
        exact ⟨⟨hbs, hbe⟩, fun ph3 hph3 => by
          simp only [Sum.inl.injEq] at hph3
          rw [← hph3]
          exact hok, fun h2 hh2 => by simp at hh2⟩
      | cons k ks =>
        simp only [stepG, hg, he]
        refine ⟨⟨hbs, hbe⟩, ?_, ?_⟩
        · intro ph2 hph2
          simp only [Sum.inl.injEq] at hph2
          rw [← hph2]
          intro h2 hm
          obtain ⟨mm, hmm, hh⟩ := Option.map_eq_some'.mp hm
          obtain ⟨p, hp, hpm⟩ := mapGet_mem _ _ _ hmm
          have := hbs p hp
          rw [hpm, hh] at this
          exact this
        · intro h2 hh2
          simp at hh2
  | .cleanupWait k hh rest w =>
    have hvic : ∀ h2, hh = some h2 → h2 < st.nextHandle := hph
    have hbs2 : ∀ p ∈ mapDelete st.sessions k, p.2.handle < st.nextHandle :=
      fun p hp => hbs p (mapDelete_mem _ _ _ hp)
    cases hh with
    | none =>
      have hbe2 : ∀ h2 k2 t2, PoolEvent.destroyCall h2 k2 t2 ∈
          st.events ++ [] → h2 < st.nextHandle := by
        intro h2 k2 t2 hm
        rcases List.mem_append.mp hm with hm | hm
        · exact hbe _ _ _ hm
        · simp at hm
      cases rest with
      | nil =>
        simp only [stepG]
        obtain ⟨ph2, heq, hok⟩ := afterCleanup_solo env
          { st with
              now := max st.now w,
              sessions := mapDelete st.sessions k,
              events := st.events ++ [] } hbs2
        rw [heq]
        exact ⟨⟨hbs2, hbe2⟩, fun ph3 hph3 => by
          simp only [Sum.inl.injEq] at hph3
          rw [← hph3]
          exact hok, fun h2 hh2 => by simp at hh2⟩
      | cons k2 ks =>
        simp only [stepG]
        refine ⟨⟨hbs2, hbe2⟩, ?_, ?_⟩
        · intro ph2 hph2
          simp only [Sum.inl.injEq] at hph2
          rw [← hph2]
          intro h2 hm
          obtain ⟨mm, hmm, hhm⟩ := Option.map_eq_some'.mp hm
          obtain ⟨p, hp, hpm⟩ := mapGet_mem _ _ _ hmm
          have := hbs2 p hp
          rw [hpm, hhm] at this
          exact this
        · intro h2 hh2
          simp at hh2
    | some hh2 =>
      have hbe2 : ∀ h2 k2 t2, PoolEvent.destroyCall h2 k2 t2 ∈
          st.events ++ [PoolEvent.destroyCall hh2 k (max st.now w)] →
          h2 < st.nextHandle := by
        intro h2 k2 t2 hm
        rcases List.mem_append.mp hm with hm | hm
        · exact hbe _ _ _ hm
        · simp only [List.mem_singleton, PoolEvent.destroyCall.injEq] at hm
          rw [hm.1]
          exact hvic hh2 rfl
      cases rest with
      | nil =>
        simp only [stepG]
        obtain ⟨ph2, heq, hok⟩ := afterCleanup_solo env
          { st with
              now := max st.now w,
              sessions := mapDelete st.sessions k,
              events := st.events ++
                [PoolEvent.destroyCall hh2 k (max st.now w)] } hbs2
        rw [heq]
        exact ⟨⟨hbs2, hbe2⟩, fun ph3 hph3 => by
          simp only [Sum.inl.injEq] at hph3
          rw [← hph3]
          exact hok, fun h3 hh3 => by simp at hh3⟩
      | cons k2 ks =>
        simp only [stepG]
        refine ⟨⟨hbs2, hbe2⟩, ?_, ?_⟩
        · intro ph2 hph2
          simp only [Sum.inl.injEq] at hph2
          rw [← hph2]
          intro h3 hm
          obtain ⟨mm, hmm, hhm⟩ := Option.map_eq_some'.mp hm
          obtain ⟨p, hp, hpm⟩ := mapGet_mem _ _ _ hmm
          have := hbs2 p hp
          rw [hpm, hhm] at this
          exact this
        · intro h3 hh3
          simp at hh3
  | .evictWait k hh w =>
    have hvic : hh < st.nextHandle := hph
    have hbs2 : ∀ p ∈ mapDelete st.sessions k, p.2.handle < st.nextHandle :=
      fun p hp => hbs p (mapDelete_mem _ _ _ hp)
    have hbe2 : ∀ h2 k2 t2, PoolEvent.destroyCall h2 k2 t2 ∈
        st.events ++ [PoolEvent.destroyCall hh k (max st.now w)] →
        h2 < st.nextHandle := by
      intro h2 k2 t2 hm
      rcases List.mem_append.mp hm with hm | hm
      · exact hbe _ _ _ hm
      · simp only [List.mem_singleton, PoolEvent.destroyCall.injEq] at hm
        rw [hm.1]
        exact hvic
    simp only [stepG]
    refine ⟨⟨hbs2, hbe2⟩, ?_, ?_⟩
    · intro ph2 hph2
      simp only [Sum.inl.injEq] at hph2
      rw [← hph2]
      exact rateOrCreate_ok env _
    · intro h2 hh2
      simp at hh2
  | .rateWait w =>
    simp only [stepG]
    exact ⟨⟨hbs, hbe⟩, fun ph2 hph2 => by
      simp only [Sum.inl.injEq] at hph2
      rw [← hph2]
      trivial, fun h2 hh2 => by simp at hh2⟩
  | .availWait w =>
    have hbe2 : ∀ h2 k2 t2, PoolEvent.destroyCall h2 k2 t2 ∈
        st.events ++ [PoolEvent.createCall (sessionKey cfg) (max st.now w)] →
        h2 < st.nextHandle := by
      intro h2 k2 t2 hm
      rcases List.mem_append.mp hm with hm | hm
      · exact hbe _ _ _ hm
      · simp at hm
    simp only [stepG]
    exact ⟨⟨hbs, hbe2⟩, fun ph2 hph2 => by
      simp only [Sum.inl.injEq] at hph2
      rw [← hph2]
      trivial, fun h2 hh2 => by simp at hh2⟩
  | .createWait w =>
    simp only [stepG]
    refine ⟨⟨?_, ?_⟩, ?_, ?_⟩
    · intro q hq
      rcases mapSet_mem _ _ _ _ hq with hq1 | hq1
      · rw [hq1]
        exact Nat.lt_succ_self _
      · exact Nat.lt_succ_of_lt (hbs q hq1)
    · intro h2 k2 t2 hm
      rcases List.mem_append.mp hm with hm | hm
      · exact Nat.lt_succ_of_lt (hbe _ _ _ hm)
      · simp at hm
    · intro ph2 hph2
      simp at hph2
    · intro h2 hh2
      simp only [Sum.inr.injEq] at hh2
      rw [← hh2]
      apply destroyCallsOf_nil_of_lt
      intro h3 k3 t3 hm
      rcases List.mem_append.mp hm with hm | hm
      · exact hbe _ _ _ hm
      · simp at hm

/-- One step of a solo chunk-processor thread preserves the solo-run
invariant: acquisition steps are covered by stepG_solo, and the chunk
loop only appends process calls, which touch no session. -/
theorem stepTh_solo (env : HostEnv) (st : PoolState) (th : Thread)
    (h : soloOK st th) :
    soloOK (stepTh env st th).1 (stepTh env st th).2 := by
  obtain ⟨hb, ha⟩ := h
  match th with
  | .acq cfg ph => exact absurd ha (by simp [thPhaseOK])
  | .acqDone cfg hdl => exact absurd ha (by simp [thPhaseOK])
  | .prc cfg n (.acquiring g) =>
    obtain ⟨hb2, hinl, hinr⟩ := stepG_solo env cfg st g hb ha
    cases hstep : stepG env cfg st g with
    | mk st2 res =>
      rw [hstep] at hb2 hinl hinr
      cases res with
      | inl ph2 =>
        simp only [stepTh, hstep]
        exact ⟨hb2, hinl ph2 rfl⟩
      | inr h2 =>
        simp only [stepTh, hstep]
        exact ⟨hb2, hinr h2 rfl⟩
  | .prc cfg n (.chunkCall hdl i w) =>
    have hcl : destroyCallsOf hdl st.events = [] := ha
    by_cases hi : i < n
    all_goals simp only [stepTh, hi, if_true, if_false, reduceIte]
    · refine ⟨⟨hb.1, ?_⟩, ?_⟩
      · intro h2 k2 t2 hm
        rcases List.mem_append.mp hm with hm | hm
        · exact hb.2 _ _ _ hm
        · simp at hm
      · show destroyCallsOf hdl _ = []
        simp [destroyCallsOf, List.filter_append] at hcl ⊢
        simpa [destroyCallsOf] using hcl
    · exact ⟨hb, hcl⟩
  | .prc cfg n (.chunkWait hdl i w) =>
    have hcl : destroyCallsOf hdl st.events = [] := ha
    by_cases hi : i + 1 < n
    all_goals simp only [stepTh, hi, if_true, if_false, reduceIte]
    all_goals exact ⟨hb, hcl⟩
  | .prc cfg n (.finished hdl) =>
    simp only [stepTh]
    exact ⟨hb, ha⟩

/-- Any schedule over a single chunk-processor thread preserves the
solo-run invariant. -/
theorem runSched_solo (env : HostEnv) :
    ∀ (sched : List SchedItem) (st : PoolState) (th : Thread), soloOK st th →
      ∃ th2, (runSched env st [th] sched).2 = [th2] ∧
        soloOK (runSched env st [th] sched).1 th2 := by
  intro sched
  induction sched with
  | nil => intro st th h; exact ⟨th, rfl, h⟩
  | cons item rest ih =>
    intro st th h
    match item with
    | .tick d =>
      rw [runSched]
      exact ih { st with now := st.now + d } th ⟨h.1, h.2⟩
    | .runT 0 =>
      rw [runSched]
      simp only [List.getElem?_cons_zero]
      have hstep := stepTh_solo env st th h
      cases hst : stepTh env st th with
      | mk st2 th2 =>
        rw [hst] at hstep
        simpa using ih st2 th2 hstep
    | .runT (i + 1) =>
      rw [runSched]
      simp only [List.getElem?_cons_succ, List.getElem?_nil]
      exact ih st th h

/-- C3 (amended): the session a chunk-processor call acquired can be
destroyed while the call is in flight by concurrent session-manager
operations (c3_destroyed_while_in_flight exhibits a concurrent acquire
evicting it between two chunks); absent such concurrent operations, the
session the call acquired is never destroyed during the call.  The
chunk-processor task runs alone against an arbitrary starting pool whose
log is fresh and whose stored handles are below the fresh-handle counter;
its own idle sweep or capacity eviction may destroy other, older sessions
during acquisition, but no destroy call in the entire run ever targets
the handle the call acquired. -/
theorem c3_solo_acquired_never_destroyed (env : HostEnv) (cfg : SessionConfig)
    (numChunks w : Nat) (st0 : PoolState) (sched : List SchedItem)
    (hev : st0.events = [])
    (hhb : ∀ p ∈ st0.sessions, p.2.handle < st0.nextHandle) :
    ∀ th2, (runSched env st0
        [.prc cfg numChunks (.acquiring (.gstart w))] sched).2 = [th2] →
      ∀ h, procHandle th2 = some h →
        destroyCallsOf h (runSched env st0
          [.prc cfg numChunks (.acquiring (.gstart w))] sched).1.events = [] := by
  intro th2 hth h hh
  obtain ⟨th3, hth3, hinv⟩ := runSched_solo env sched st0
    (.prc cfg numChunks (.acquiring (.gstart w)))
    ⟨⟨hhb, by rw [hev]; intro h2 k t hm; simp at hm⟩, hev⟩
  rw [hth] at hth3
  obtain rfl : th2 = th3 := by simpa using hth3
  match th2, hh, hinv.2 with
  | .prc c n2 (.chunkCall h2 i w2), hh, hcl =>
    obtain rfl : h2 = h := by simpa [procHandle] using hh
    exact hcl
  | .prc c n2 (.chunkWait h2 i w2), hh, hcl =>
    obtain rfl : h2 = h := by simpa [procHandle] using hh
    exact hcl
  | .prc c n2 (.finished h2), hh, hcl =>
    obtain rfl : h2 = h := by simpa [procHandle] using hh
    exact hcl
  | .prc c n2 (.acquiring g), hh, _ => simp [procHandle] at hh
  | .acq c p, hh, hcl => exact absurd hcl (by simp [thPhaseOK])
  | .acqDone c hd, hh, hcl => exact absurd hcl (by simp [thPhaseOK])

/-- Witness for c3_solo_acquired_never_destroyed: a solo chunk-processor
run against a pool already holding one stale session.  The run's own idle
sweep destroys the stale session (handle 5), yet no destroy call in the
whole log targets the session the call acquired (handle 6). -/
theorem c3_solo_acquired_never_destroyed_witness :
    (runSched envZero dirtyPool
        [.prc (cfgOf "p") 2 (.acquiring (.gstart 0))] dirtySched).2 =
      [.prc (cfgOf "p") 2 (.finished 6)] ∧
    destroyCalls (runSched envZero dirtyPool
        [.prc (cfgOf "p") 2 (.acquiring (.gstart 0))] dirtySched).1.events =
      [.destroyCall 5 "summarizer-old" 400200] ∧
    destroyCallsOf 6 (runSched envZero dirtyPool
        [.prc (cfgOf "p") 2 (.acquiring (.gstart 0))] dirtySched).1.events = [] :=
  ⟨by decide, by decide,
   c3_solo_acquired_never_destroyed envZero (cfgOf "p") 2 0 dirtyPool dirtySched
     rfl (by decide) (.prc (cfgOf "p") 2 (.finished 6)) (by decide) 6 rfl⟩

/-- Witness for c10_split_terminates at the default options and a short
concrete text. -/
theorem c10_split_terminates_witness :
    1 ≤ DEFAULT_CHUNK_SIZE ∧ DEFAULT_OVERLAP ≤ DEFAULT_CHUNK_SIZE / 2 ∧
      ∃ chunks, splitIntoChunks ("hello world. A test".toList)
        DEFAULT_CHUNK_SIZE DEFAULT_OVERLAP = some chunks :=
  ⟨by decide, by decide,
    c10_split_terminates ("hello world. A test".toList) DEFAULT_CHUNK_SIZE DEFAULT_OVERLAP
      (by decide) (by decide)⟩

end TalkToTabs
